import Mathlib

/-!
Verification of the host-side RISC-V zkVM emulator's cost-accounting core.

The development shallowly embeds the four collaborators treated by the spec:
the memory monitor's page-touch accounting (`exec/monitor.rs`), the RV32IM
instruction decoder (`exec/rv32im.rs`), the ecall dispatcher
(`exec/ecall.rs`), and the guest-side fixed-width big integer
(`bigint.rs`).  Machine integers are modelled as `Nat` with explicit
`% 2 ^ 32` at the points where the Rust code wraps; fallible paths return
`Except`.
-/

/-! ## Memory monitor (`exec/monitor.rs`) -/

/-- Per-access paging direction; `IncludeDir` in `exec/monitor.rs`. -/
inductive IncludeDir
  | Read
  | Write
deriving DecidableEq, Repr

/-- Cycle-cost constant `SHA_INIT` from `exec/monitor.rs`. -/
def SHA_INIT : Nat := 5

/-- Cycle-cost constant `SHA_LOAD` from `exec/monitor.rs`. -/
def SHA_LOAD : Nat := 16

/-- Cycle-cost constant `SHA_MAIN` from `exec/monitor.rs`. -/
def SHA_MAIN : Nat := 52

/-- Bytes per SHA-256 compression block (`BLOCK_BYTES` of `risc0_zkp`). -/
def BLOCK_BYTES : Nat := 64

/-- The function `cycles_per_page` from `exec/monitor.rs`:
`1 + SHA_INIT + (SHA_LOAD + SHA_MAIN) * blocks_per_page`. -/
def cycles_per_page (blocks_per_page : Nat) : Nat :=
  1 + SHA_INIT + (SHA_LOAD + SHA_MAIN) * blocks_per_page

/-- Abstract page-table geometry consumed by the memory monitor.  The fields
`root_idx`, `num_root_entries` and `get_page_entry_addr` mirror the interface
of `PageTableInfo` (declared in `binfmt/image.rs`); the monitor uses them only
through these accessors, so the development is generic over them.  The
`depth`/`depth_dec` fields capture the documented shape of the structure: the
page table is a tree rooted at a fixed index, so following authentication
entries from any non-root page strictly descends and the ancestor chain is
finite.  `page_size` is the platform page size constant `PAGE_SIZE`. -/
structure PageTableInfo where
  page_size : Nat
  root_idx : Nat
  num_root_entries : Nat
  get_page_entry_addr : Nat → Nat
  depth : Nat → Nat
  depth_dec : ∀ p, p ≠ root_idx →
    depth (get_page_entry_addr p / page_size) < depth p

/-- The number of blocks that fit within a single page:
`BLOCKS_PER_PAGE = PAGE_SIZE / BLOCK_BYTES` from `exec/monitor.rs`. -/
def BLOCKS_PER_PAGE (info : PageTableInfo) : Nat := info.page_size / BLOCK_BYTES

/-- State of `MemoryMonitor` relevant to cost accounting: the per-page
`PageFlags` (`page_in` = touched for load, `page_out` = touched for store)
and the two cycle counters.  The memory image itself carries no accounting
state and is omitted. -/
structure MemoryMonitor where
  page_in : Nat → Bool
  page_out : Nat → Bool
  segment_cycle : Nat
  prev_segments_cycle : Nat

/-- Reading the `(page, direction)` flag, as `include` does through
`page.page_in` / `page.page_out`. -/
def MemoryMonitor.getFlag (s : MemoryMonitor) (idx : Nat) : IncludeDir → Bool
  | .Read => s.page_in idx
  | .Write => s.page_out idx

/-- Setting the `(page, direction)` flag, as `include` does through
`*did_page = true`. -/
def MemoryMonitor.setFlag (s : MemoryMonitor) (idx : Nat) : IncludeDir → MemoryMonitor
  | .Read => { s with page_in := fun p => if p = idx then true else s.page_in p }
  | .Write => { s with page_out := fun p => if p = idx then true else s.page_out p }

/-- `MemoryMonitor::compute_page_cycles`: the root page is charged for
`num_root_entries / 2` blocks, every other page for a full page of blocks. -/
def compute_page_cycles (info : PageTableInfo) (page_idx : Nat) : Nat :=
  if page_idx = info.root_idx then cycles_per_page (info.num_root_entries / 2)
  else cycles_per_page (BLOCKS_PER_PAGE info)

/-- `MemoryMonitor::include`: resolve the page of `addr`; if its flag for
`dir` is clear, set it, charge `compute_page_cycles` to the segment total and,
unless the page is the root, recurse on the address of the page's
authentication entry in the same direction.  (`include` is a Lean keyword,
hence the name.) -/
def MemoryMonitor.includeAddr (info : PageTableInfo) (s : MemoryMonitor)
    (addr : Nat) (dir : IncludeDir) : MemoryMonitor :=
  if s.getFlag (addr / info.page_size) dir then s
  else
    let s1 : MemoryMonitor :=
      { s.setFlag (addr / info.page_size) dir with
        segment_cycle :=
          s.segment_cycle + compute_page_cycles info (addr / info.page_size) }
    if h : addr / info.page_size = info.root_idx then s1
    else MemoryMonitor.includeAddr info s1
      (info.get_page_entry_addr (addr / info.page_size)) dir
termination_by info.depth (addr / info.page_size)
decreasing_by exact info.depth_dec (addr / info.page_size) h

/-- Cycles that an `include` at `addr` adds, as a function of the relevant
direction's flags alone.  This is the specification-side cost function used to
state the accounting theorems; `includeAddr` is proved to add exactly this. -/
def inclCost (info : PageTableInfo) (flag : Nat → Bool) (addr : Nat) : Nat :=
  if flag (addr / info.page_size) then 0
  else
    compute_page_cycles info (addr / info.page_size) +
      if h : addr / info.page_size = info.root_idx then 0
      else inclCost info
        (fun p => if p = addr / info.page_size then true else flag p)
        (info.get_page_entry_addr (addr / info.page_size))
termination_by info.depth (addr / info.page_size)
decreasing_by exact info.depth_dec (addr / info.page_size) h

/-- The direction's flag assignment of a monitor state. -/
def MemoryMonitor.dirFlags (s : MemoryMonitor) (dir : IncludeDir) : Nat → Bool :=
  fun p => s.getFlag p dir

/-- `MemoryMonitor::clear_segment`: reset every page flag in both directions,
fold the current segment total into the cumulative total and zero it. -/
def MemoryMonitor.clear_segment (s : MemoryMonitor) : MemoryMonitor :=
  { page_in := fun _ => false
    page_out := fun _ => false
    segment_cycle := 0
    prev_segments_cycle := s.prev_segments_cycle + s.segment_cycle }

/-- `SyscallContext::get_cycle` for `MemoryMonitor`:
`segment_cycle + prev_segments_cycle`. -/
def MemoryMonitor.get_cycle (s : MemoryMonitor) : Nat :=
  s.segment_cycle + s.prev_segments_cycle

/-- A run of closed segments: each segment leaves some current-segment total
`c`, and `clear_segment` closes it.  Used to state that the cumulative counter
is the sum of all prior segments' totals. -/
def runSegments (s : MemoryMonitor) (cs : List Nat) : MemoryMonitor :=
  cs.foldl (fun t c => MemoryMonitor.clear_segment { t with segment_cycle := c }) s

/-! ## Instruction decoder (`exec/rv32im.rs`) -/

/-- One past the largest `u32`. -/
def U32 : Nat := 2 ^ 32

/-- Effect record of one decoded instruction; `InstRecord` in
`exec/rv32im.rs`. -/
inductive InstRecord
  | MemoryLoad (addr val reg : Nat)
  | MemoryStore (addr val : Nat)
  | RegisterStore (reg val new_pc cycles : Nat)
  | ECall
deriving DecidableEq, Repr

/-- Failure cases of the embedded core, one constructor per `bail!` (decoder
and ecall dispatcher combined). -/
inductive ExecErr
  | unalignedPc
  | invalidRArith
  | invalidIArith
  | invalidLoad
  | unalignedRam
  | invalidStoreOp
  | invalidBranch
  | invalidJalr
  | invalidOpcode
  | unknownEcall (selector : Nat)
  | illegalHaltType (halt_type : Nat)
  | opNonzero
  | mulOverflow
  | unknownSyscall (name : List Nat)
  | stringNoNul
  | handlerErr
deriving DecidableEq, Repr

/-- Read-only machine view consumed by the decoder; the `MachineState` trait
(`load_ram` returns the aligned word containing an address, `load_reg` a
register value). -/
structure MachineState where
  load_ram : Nat → Nat
  load_reg : Nat → Nat

/-- `extract_bits`: RISC-V style field extraction, high bit first, inclusive
range.  `(val >> lowest_bit) & !((!0) << nbits)` masks to `nbits` bits. -/
def extract_bits (val highest_bit lowest_bit : Nat) : Nat :=
  (val >>> lowest_bit) % 2 ^ (highest_bit + 1 - lowest_bit)

/-- A `w`-bit two's-complement value read as a signed integer. -/
def toSigned (w x : Nat) : Int :=
  if x % 2 ^ w < 2 ^ (w - 1) then (x % 2 ^ w : Nat) else (x % 2 ^ w : Nat) - 2 ^ w

/-- A signed integer re-read as a `u32` (the `as u32` casts). -/
def toU32 (z : Int) : Nat := (z % (2 ^ 32 : Int)).toNat

/-- `extract_bits_signed`: extract a field and sign extend it.  The source
shifts the field so its top bit lands in bit 31 of a `u32`, reinterprets as
`i32` and arithmetically shifts back down; an `i32` arithmetic right shift by
`k` is floor division by `2 ^ k`. -/
def extract_bits_signed (val highest_bit lowest_bit : Nat) : Int :=
  let nbits := highest_bit - lowest_bit + 1
  let signed := toSigned 32 ((val <<< (31 - highest_bit)) % U32)
  Int.fdiv signed (2 ^ (32 - nbits))

/-- `exec_rv32im`: decode one RV32IM instruction at `pc` against the read-only
machine view and produce its effect record, without mutating state.  Wrapping
`u32` arithmetic is `% U32`; `i32` reinterpretation is `toSigned 32`; `i32`
truncating division/remainder (`wrapping_div`/`wrapping_rem`) is
`Int.tdiv`/`Int.tmod`, whose sole wrapping case `i32::MIN / -1` is absorbed by
the final `% U32` in `toU32`.  Word masks `addr & !(WORD_SIZE-1)` and
`addr & (WORD_SIZE-1)` are written `addr / 4 * 4` and `addr % 4`. -/
def exec_rv32im (pc : Nat) (state : MachineState) : Except ExecErr InstRecord :=
  if pc % 4 ≠ 0 then .error .unalignedPc
  else
    let inst := state.load_ram pc
    let opcode := extract_bits inst 6 0
    let funct7 := extract_bits inst 31 25
    let rs2reg := extract_bits inst 24 20
    let rs1reg := extract_bits inst 19 15
    let funct3 := extract_bits inst 14 12
    let rd := extract_bits inst 11 7
    if opcode = 0b0110011 then
      -- R-format arithmetic ops
      let rs1 := state.load_reg rs1reg
      let rs2 := state.load_reg rs2reg
      let set_rd := fun (val cycles : Nat) =>
        Except.ok (InstRecord.RegisterStore rd val (pc + 4) cycles)
      match funct3, funct7 with
      | 0b000, 0b0000000 => set_rd ((rs1 + rs2) % U32) 1
      | 0b000, 0b0000001 => set_rd (rs1 * rs2 % U32) 2
      | 0b000, 0b0100000 => set_rd ((U32 + rs1 - rs2 % U32) % U32) 1
      | 0b001, 0b0000000 => set_rd (rs1 <<< (rs2 % 32) % U32) 2
      | 0b010, 0b0000000 => set_rd (if toSigned 32 rs1 < toSigned 32 rs2 then 1 else 0) 1
      | 0b011, 0b0000000 => set_rd (if rs1 < rs2 then 1 else 0) 1
      | 0b101, 0b0000000 => set_rd (rs1 % U32 >>> (rs2 % 32)) 2
      | 0b100, 0b0000000 => set_rd ((rs1 ^^^ rs2) % U32) 2
      | 0b101, 0b0100000 => set_rd (toU32 (Int.fdiv (toSigned 32 rs1) (2 ^ (rs2 % 32)))) 2
      | 0b110, 0b0000000 => set_rd ((rs1 ||| rs2) % U32) 2
      | 0b111, 0b0000000 => set_rd ((rs1 &&& rs2) % U32) 2
      | 0b001, 0b0000001 => set_rd (toU32 (Int.fdiv (toSigned 32 rs1 * toSigned 32 rs2) (2 ^ 32))) 2
      | 0b010, 0b0000001 => set_rd ((toSigned 32 rs1 % (2 ^ 64 : Int)).toNat * (rs2 % U32) % 2 ^ 64 >>> 32) 2
      | 0b011, 0b0000001 => set_rd (rs1 % U32 * (rs2 % U32) % 2 ^ 64 >>> 32) 2
      | 0b100, 0b0000001 => set_rd (if rs2 % U32 = 0 then U32 - 1
          else toU32 (Int.tdiv (toSigned 32 rs1) (toSigned 32 rs2))) 2
      | 0b101, 0b0000001 => set_rd (if rs2 % U32 = 0 then U32 - 1 else rs1 % U32 / (rs2 % U32)) 2
      | 0b110, 0b0000001 => set_rd (if rs2 % U32 = 0 then rs1
          else toU32 (Int.tmod (toSigned 32 rs1) (toSigned 32 rs2))) 2
      | 0b111, 0b0000001 => set_rd (if rs2 % U32 = 0 then rs1 else rs1 % U32 % (rs2 % U32)) 2
      | _, _ => .error .invalidRArith
    else if opcode = 0b0010011 then
      -- I-format arithmetic ops
      let rs1 := state.load_reg rs1reg
      let imm := toU32 (extract_bits_signed inst 31 20)
      let set_rd := fun (val cycles : Nat) =>
        Except.ok (InstRecord.RegisterStore rd val (pc + 4) cycles)
      match funct3, funct7 with
      | 0b000, _ => set_rd ((rs1 + imm) % U32) 1
      | 0b001, 0b0000000 => set_rd (rs1 <<< (imm % 32) % U32) 2
      | 0b010, _ => set_rd (if toSigned 32 rs1 < toSigned 32 imm then 1 else 0) 1
      | 0b011, _ => set_rd (if rs1 < imm then 1 else 0) 1
      | 0b100, _ => set_rd ((rs1 ^^^ imm) % U32) 2
      | 0b101, 0b0000000 => set_rd (rs1 % U32 >>> (imm % 32)) 2
      | 0b101, 0b0100000 => set_rd (toU32 (Int.fdiv (toSigned 32 rs1) (2 ^ (imm % 32)))) 2
      | 0b110, _ => set_rd ((rs1 ||| imm) % U32) 2
      | 0b111, _ => set_rd ((rs1 &&& imm) % U32) 2
      | _, _ => .error .invalidIArith
    else if opcode = 0b0000011 then
      -- I-format memory loads
      let imm := toU32 (extract_bits_signed inst 31 20)
      let rs1 := state.load_reg rs1reg
      let addr := (rs1 + imm) % U32
      let word_addr := addr / 4 * 4
      let offset := addr % 4
      let mem_word := state.load_ram word_addr
      let shifted := mem_word >>> (8 * offset)
      let set_rd := fun (val : Nat) =>
        Except.ok (InstRecord.MemoryLoad word_addr val rd)
      match funct3 with
      | 0b000 => set_rd (toU32 (toSigned 8 (shifted &&& 0xFF)))
      | 0b001 => set_rd (toU32 (toSigned 16 (shifted &&& 0xFFFF)))
      | 0b010 => set_rd mem_word
      | 0b100 => set_rd (shifted &&& 0xFF)
      | 0b101 => set_rd (shifted &&& 0xFFFF)
      | _ => .error .invalidLoad
    else if opcode = 0b0100011 then
      -- S-format memory stores
      let imm := (toU32 (extract_bits_signed inst 31 25) <<< 5) % U32 ||| extract_bits inst 11 7
      let rs1 := state.load_reg rs1reg
      let rs2 := state.load_reg rs2reg
      let addr := (rs1 + imm) % U32
      let word_addr := addr / 4 * 4
      let offset := addr % 4
      let old_word := state.load_ram word_addr
      let set_ram := fun (bytes mask : Nat) =>
        if word_addr &&& (bytes - 1) ≠ 0 then Except.error ExecErr.unalignedRam
        else
          let val := (old_word &&& ((U32 - 1) ^^^ mask <<< (offset * 8) % U32)) |||
            (rs2 &&& mask) <<< (offset * 8) % U32
          Except.ok (InstRecord.MemoryStore word_addr val)
      match funct3 with
      | 0b000 => set_ram 1 0xFF
      | 0b001 => set_ram 2 0xFFFF
      | 0b010 => set_ram 4 0xFFFFFFFF
      | _ => .error .invalidStoreOp
    else if opcode = 0b0110111 then
      -- U-format lui
      let imm := extract_bits inst 31 12
      Except.ok (InstRecord.RegisterStore rd (imm <<< 12) (pc + 4) 1)
    else if opcode = 0b0010111 then
      -- U-format auipc
      let imm := extract_bits inst 31 12
      Except.ok (InstRecord.RegisterStore rd ((pc + imm <<< 12) % U32) (pc + 4) 1)
    else if opcode = 0b1100011 then
      -- B-format branch
      let imm := (toU32 (extract_bits_signed inst 31 31) <<< 12) % U32 |||
        extract_bits inst 30 25 <<< 5 ||| extract_bits inst 11 8 <<< 1 |||
        extract_bits inst 7 7 <<< 11
      let rs1 := state.load_reg rs1reg
      let rs2 := state.load_reg rs2reg
      let branch_if := fun (do_branch : Bool) =>
        Except.ok (InstRecord.RegisterStore 0 0
          (if do_branch then (pc + imm) % U32 else pc + 4) 1)
      match funct3 with
      | 0b000 => branch_if (rs1 == rs2)
      | 0b001 => branch_if (rs1 != rs2)
      | 0b100 => branch_if (toSigned 32 rs1 < toSigned 32 rs2)
      | 0b101 => branch_if (toSigned 32 rs2 ≤ toSigned 32 rs1)
      | 0b110 => branch_if (rs1 < rs2)
      | 0b111 => branch_if (rs2 ≤ rs1)
      | _ => .error .invalidBranch
    else if opcode = 0b1101111 then
      -- J-format jal
      let imm := (toU32 (extract_bits_signed inst 31 31) <<< 20) % U32 |||
        extract_bits inst 30 21 <<< 1 ||| extract_bits inst 20 20 <<< 11 |||
        extract_bits inst 19 12 <<< 12
      Except.ok (InstRecord.RegisterStore rd (pc + 4) ((pc + imm) % U32) 1)
    else if opcode = 0b1100111 then
      -- I-format jalr
      if funct3 ≠ 0b000 then .error .invalidJalr
      else
        let imm := toU32 (extract_bits_signed inst 31 20)
        let rs1 := state.load_reg rs1reg
        Except.ok (InstRecord.RegisterStore rd (pc + 4) ((rs1 + imm / 2 * 2) % U32) 1)
    else if opcode = 0b1110011 then
      -- ECall
      Except.ok InstRecord.ECall
    else .error .invalidOpcode

/-! ## ECall dispatcher (`exec/ecall.rs`) -/

/-- Number of cycles charged per BigInt operation (`BIGINT_CYCLES`). -/
def BIGINT_CYCLES : Nat := 9

/-- Number of 32-bit limbs of a BigInt operand (`bigint::WIDTH_WORDS` of the
platform crate): 8 limbs = 256 bits. -/
def WIDTH_WORDS : Nat := 8

/-- Platform word size in bytes (`WORD_SIZE`). -/
def WORD_SIZE : Nat := 4

/-- Argument-register indices of the fixed syscall ABI (`reg_abi` of the
platform crate): the standard RISC-V numbering t0 = x5, a0..a4 = x10..x14. -/
def REG_T0 : Nat := 5

/-- Register index of a0 = x10. -/
def REG_A0 : Nat := 10

/-- Register index of a1 = x11. -/
def REG_A1 : Nat := 11

/-- Register index of a2 = x12. -/
def REG_A2 : Nat := 12

/-- Register index of a3 = x13. -/
def REG_A3 : Nat := 13

/-- Register index of a4 = x14. -/
def REG_A4 : Nat := 14

/-- Terminal states produced by the HALT ecall (`ExitCode`). -/
inductive ExitCode
  | Halted (user_exit : Nat)
  | Paused (user_exit : Nat)
deriving DecidableEq, Repr

/-- Observable effect of one ecall (`ECallRecord`): pages read, raw RAM word
writes, register writes, the optional syscall record (guest buffer plus the
two returned registers), the optional exit code, and the cycle charge.  The
`BTreeSet<u32>` of page indices is a `Finset Nat`. -/
structure ECallRecord where
  page_loads : Finset Nat
  ram_writes : List (Nat × Nat)
  reg_writes : List (Nat × Nat)
  syscall : Option (List Nat × Nat × Nat)
  exit_code : Option ExitCode
  cycles : Nat

/-- The all-empty record `ECallRecord::default()`. -/
def ECallRecord.init : ECallRecord :=
  { page_loads := ∅, ram_writes := [], reg_writes := [], syscall := none
    exit_code := none, cycles := 0 }

/-- `ECallExecutor::load_ram_words`: record the page indices covered by `len`
words starting at `addr` (nothing when `len == 0`) and return the words.
`mem` is the word-addressed view `SyscallContext::load_u32`; `PS` is the
platform `PAGE_SIZE`. -/
def load_ram_words (PS : Nat) (mem : Nat → Nat) (ex : ECallRecord)
    (addr len : Nat) : ECallRecord × List Nat :=
  let ex1 := if len = 0 then ex else
    { ex with page_loads :=
        ex.page_loads ∪ Finset.Icc (addr / PS) ((addr + len * WORD_SIZE - 1) / PS) }
  (ex1, (List.range len).map fun i => mem (addr + i * WORD_SIZE))

/-- `ECallExecutor::load_ram`: the byte-granular variant; covers `len` bytes
from `addr`.  (The source guards `len != 0` twice in a row; one test
suffices.)  `memb` is the byte-addressed view `SyscallContext::load_u8`. -/
def ecall_load_ram (PS : Nat) (memb : Nat → Nat) (ex : ECallRecord)
    (addr len : Nat) : ECallRecord × List Nat :=
  let ex1 := if len = 0 then ex else
    { ex with page_loads :=
        ex.page_loads ∪ Finset.Icc (addr / PS) ((addr + len - 1) / PS) }
  (ex1, (List.range len).map fun i => memb (addr + i))

/-- Value of a least-significant-first list of 32-bit words. -/
def wordsToNat : List Nat → Nat
  | [] => 0
  | w :: ws => w + wordsToNat ws * 2 ^ 32

/-- The `WIDTH_WORDS` little-endian limbs of `z`. -/
def natToWords (z : Nat) : List Nat :=
  (List.range WIDTH_WORDS).map fun i => z / 2 ^ (32 * i) % 2 ^ 32

/-- `ECallExecutor::store_ram_words`: one `(address, word)` write per word,
word `i` at `addr + i * WORD_SIZE`. -/
def storeWords (addr : Nat) (ws : List Nat) : List (Nat × Nat) :=
  ws.enum.map fun p => (addr + p.1 * WORD_SIZE, p.2)

/-- The 256-bit operand read by the BIGINT ecall from `ptr`: `WIDTH_WORDS`
words interpreted least-significant first (the `to_le` conversions are the
identity on the machine's little-endian words). -/
def bigintOperand (mem : Nat → Nat) (ptr : Nat) : Nat :=
  wordsToNat ((List.range WIDTH_WORDS).map fun i => mem (ptr + i * WORD_SIZE))

/-- `ECallExecutor::do_bigint`: read `z_ptr, op, x_ptr, y_ptr, n_ptr` from
`a0..a4`, charge `BIGINT_CYCLES`, fail unless `op == 0`, load the three
256-bit operands, compute `x*y` (`checked_mul`, failing on 256-bit overflow)
when `n == 0` and otherwise the 512-bit-exact product reduced mod `n` and
truncated back to 256 bits (`resize`), and write the result's limbs at
`z_ptr`.  `regs` is the register file view used by `load_registers`. -/
def do_bigint (PS : Nat) (mem : Nat → Nat) (regs : Nat → Nat) :
    Except ExecErr ECallRecord :=
  let z_ptr := regs REG_A0
  let op := regs REG_A1
  let x_ptr := regs REG_A2
  let y_ptr := regs REG_A3
  let n_ptr := regs REG_A4
  let ex0 := { ECallRecord.init with cycles := ECallRecord.init.cycles + BIGINT_CYCLES }
  if op ≠ 0 then .error .opNonzero
  else
    let (ex1, xw) := load_ram_words PS mem ex0 x_ptr WIDTH_WORDS
    let (ex2, yw) := load_ram_words PS mem ex1 y_ptr WIDTH_WORDS
    let (ex3, nw) := load_ram_words PS mem ex2 n_ptr WIDTH_WORDS
    let x := wordsToNat xw
    let y := wordsToNat yw
    let n := wordsToNat nw
    if n = 0 then
      if x * y < 2 ^ 256 then
        .ok { ex3 with ram_writes := ex3.ram_writes ++ storeWords z_ptr (natToWords (x * y)) }
      else .error .mulOverflow
    else
      .ok { ex3 with ram_writes :=
        ex3.ram_writes ++ storeWords z_ptr (natToWords (x * y % n % 2 ^ 256)) }

/-- Modelled from the spec: `align_up`, defined at the `risc0-zkvm` crate root
(outside the sources at hand) and used by the SOFTWARE ecall on the requested
word count.  Aligning a value up to a power-of-two alignment `al` is
`(addr + al - 1) & !(al - 1)`, written here in its division form: the least
multiple of `al` that is `≥ addr`. -/
def align_up (addr al : Nat) : Nat := (addr + al - 1) / al * al

/-- A host syscall handler (`Syscall::syscall`): given the zero-initialised
guest output buffer, it returns the two result registers `(a0, a1)` and the
filled buffer, or a host-side error.  Names are byte strings. -/
def Handler : Type := List Nat → Except ExecErr ((Nat × Nat) × List Nat)

/-- Name-keyed lookup of a handler, the `ExecutorEnv::get_syscall` /
`SyscallTable` map access. -/
def lookupSyscall : List (List Nat × Handler) → List Nat → Option Handler
  | [], _ => none
  | (k, h) :: rest, name => if k = name then some h else lookupSyscall rest name

/-- `SyscallContext::load_string`: read bytes from `addr` up to the first NUL.
The source loops unboundedly; `fuel` bounds the walk, and `none` models the
absent terminator (the loop never returning). -/
def load_string_bytes (memb : Nat → Nat) (addr : Nat) : Nat → Option (List Nat)
  | 0 => none
  | fuel + 1 =>
    let b := memb addr
    if b = 0 then some []
    else (load_string_bytes memb (addr + 1) fuel).map fun s => b :: s

/-- `ECallExecutor::do_software`: read the output pointer, the requested word
count and the name pointer from `a0..a2`, read the NUL-terminated name, charge
`align_up(words, WORD_SIZE) + 2` cycles, look the name up in the registry
(failing with the unknown-syscall error when absent), run the handler on a
fresh zeroed buffer of `words` words, then record the buffer writes at the
output pointer, the two register writes and the syscall record. -/
def do_software (tbl : List (List Nat × Handler)) (memb : Nat → Nat)
    (regs : Nat → Nat) (fuel : Nat) : Except ExecErr ECallRecord :=
  let to_guest_ptr := regs REG_A0
  let to_guest_words := regs REG_A1
  let name_ptr := regs REG_A2
  match load_string_bytes memb name_ptr fuel with
  | none => .error .stringNoNul
  | some name =>
    let chunks := align_up to_guest_words WORD_SIZE
    let ex0 := { ECallRecord.init with cycles := ECallRecord.init.cycles + (chunks + 2) }
    match lookupSyscall tbl name with
    | none => .error (.unknownSyscall name)
    | some h =>
      match h (List.replicate to_guest_words 0) with
      | .error e => .error e
      | .ok ((a0, a1), to_guest) =>
        .ok { ex0 with
          ram_writes := ex0.ram_writes ++ storeWords to_guest_ptr to_guest
          reg_writes := ex0.reg_writes ++ [(REG_A0, a0), (REG_A1, a1)]
          syscall := some (to_guest, a0, a1) }

/-! ## Guest-side fixed-width big integer (`bigint.rs`) -/

/-- The limb loop of `BigInt::add_assign`: `tmp = a[i] + b[i] + carry`, keep
the low 32 bits, `carry = (tmp >> 32) != 0`. -/
def addLoop : List Nat → List Nat → Bool → List Nat × Bool
  | a :: as, b :: bs, carry =>
    let tmp := a + b + (if carry then 1 else 0)
    let rest := addLoop as bs (tmp >>> 32 != 0)
    (tmp % 2 ^ 32 :: rest.1, rest.2)
  | _, _, carry => ([], carry)

/-- `BigInt::add_assign`: limb-wise addition with carry propagation, returning
the updated limbs and the final carry bit. -/
def BigInt.add_assign (a b : List Nat) : List Nat × Bool := addLoop a b false

/-- The limb loop of `BigInt::sub_assign`:
`tmp = (1 << 32) + a[i] - b[i] - borrow`, keep the low 32 bits,
`borrow = (tmp >> 32) == 0`. -/
def subLoop : List Nat → List Nat → Bool → List Nat × Bool
  | a :: as, b :: bs, borrow =>
    let tmp := 2 ^ 32 + a - b - (if borrow then 1 else 0)
    let rest := subLoop as bs (tmp >>> 32 == 0)
    (tmp % 2 ^ 32 :: rest.1, rest.2)
  | _, _, borrow => ([], borrow)

/-- `BigInt::sub_assign`: limb-wise subtraction with borrow propagation,
returning the updated limbs and the final borrow bit. -/
def BigInt.sub_assign (a b : List Nat) : List Nat × Bool := subLoop a b false

/-! ## Concrete instances used to exercise the theorems -/

/-- A small concrete page table: 1 KiB pages, root at index 0, every
authentication entry inside the root page. -/
def exInfo : PageTableInfo where
  page_size := 1024
  root_idx := 0
  num_root_entries := 10
  get_page_entry_addr := fun _ => 0
  depth := fun p => p
  depth_dec := by intro p hp; simpa using Nat.pos_of_ne_zero hp

/-- A fresh monitor: no page touched, both counters zero. -/
def exMon : MemoryMonitor where
  page_in := fun _ => false
  page_out := fun _ => false
  segment_cycle := 0
  prev_segments_cycle := 0

/-- Machine view holding the canonical encoding of `sll x1, x2, x3`
(`0x003110B3`) with `x2 = 5`, `x3 = 7`. -/
def sllSt : MachineState where
  load_ram := fun _ => 0x003110B3
  load_reg := fun i => if i = 2 then 5 else if i = 3 then 7 else 0

/-- Machine view holding the canonical M-extension encoding with `rd = x1`,
`rs1 = x1`, `rs2 = x2` and a selectable `funct3` (4 = `div`, 5 = `divu`,
6 = `rem`, 7 = `remu`), with dividend `x1 = 77` and divisor `x2 = 0`. -/
def divSt (funct3 : Nat) : MachineState where
  load_ram := fun _ => 0x022080B3 + funct3 * 2 ^ 12
  load_reg := fun i => if i = 1 then 77 else 0

/-- Machine view for `sh x2, 1(x1)` (`0x002090A3`) at `pc = 4` with
`x1 = 0` and `x2 = 0xABCD`: a half-word store to the odd address 1. -/
def shSt : MachineState where
  load_ram := fun a => if a = 4 then 0x002090A3 else 0
  load_reg := fun i => if i = 2 then 0xABCD else 0

/-- Word memory for the BIGINT ecall: `x = 7` at address 0, `y = 6` at
address 32, `n = 5` at address 64 (all higher limbs zero). -/
def bgMem : Nat → Nat :=
  fun a => if a = 0 then 7 else if a = 32 then 6 else if a = 64 then 5 else 0

/-- Registers for the BIGINT ecall: `z_ptr = 1000`, `op = 0`, `x_ptr = 0`,
`y_ptr = 32`, `n_ptr = 64`. -/
def bgRegs : Nat → Nat :=
  fun i => if i = 10 then 1000 else if i = 12 then 0 else
    if i = 13 then 32 else if i = 14 then 64 else 0

/-- A trivial registered handler: returns `(7, 9)` and the untouched
buffer. -/
def swHandler : Handler := fun buf => .ok ((7, 9), buf)

/-- A registry holding `swHandler` under the one-byte name `[99]`. -/
def swTbl : List (List Nat × Handler) := [([99], swHandler)]

/-- Byte memory whose NUL-terminated string at address 50 is `[99]`. -/
def swMem : Nat → Nat := fun a => if a = 50 then 99 else 0

/-- Registers for the SOFTWARE ecall: output pointer 200, one requested
output word, name pointer 50. -/
def swRegs : Nat → Nat :=
  fun i => if i = 10 then 200 else if i = 11 then 1 else if i = 12 then 50 else 0

/-- The all-ones 256-bit BigInt value, limb-wise. -/
def wA : List Nat := List.replicate 8 0xFFFFFFFF

/-- The 256-bit BigInt value one, limb-wise. -/
def wB : List Nat := [1, 0, 0, 0, 0, 0, 0, 0]

/-! ## Memory monitor: page-touch accounting theorems -/

theorem setFlag_getFlag (s : MemoryMonitor) (idx : Nat) (d : IncludeDir)
    (p : Nat) (d2 : IncludeDir) :
    (s.setFlag idx d).getFlag p d2 =
      if d2 = d ∧ p = idx then true else s.getFlag p d2 := by
  cases d <;> cases d2 <;>
    simp [MemoryMonitor.setFlag, MemoryMonitor.getFlag]

theorem setFlag_segment_cycle (s : MemoryMonitor) (idx : Nat) (d : IncludeDir) :
    (s.setFlag idx d).segment_cycle = s.segment_cycle := by
  cases d <;> rfl

theorem setFlag_prev (s : MemoryMonitor) (idx : Nat) (d : IncludeDir) :
    (s.setFlag idx d).prev_segments_cycle = s.prev_segments_cycle := by
  cases d <;> rfl

theorem updateCycle_getFlag (x : MemoryMonitor) (n p : Nat) (d2 : IncludeDir) :
    ({ x with segment_cycle := n } : MemoryMonitor).getFlag p d2 = x.getFlag p d2 := by
  cases d2 <;> rfl

theorem inclCost_flagged (info : PageTableInfo) (flag : Nat → Bool) (a : Nat)
    (hflag : flag (a / info.page_size) = true) :
    inclCost info flag a = 0 := by
  rw [inclCost, if_pos hflag]

theorem inclCost_root (info : PageTableInfo) (flag : Nat → Bool) (a : Nat)
    (hflag : ¬ flag (a / info.page_size) = true)
    (hroot : a / info.page_size = info.root_idx) :
    inclCost info flag a = compute_page_cycles info (a / info.page_size) := by
  rw [inclCost, if_neg hflag]
  simp [hroot]

theorem inclCost_step (info : PageTableInfo) (flag : Nat → Bool) (a : Nat)
    (hflag : ¬ flag (a / info.page_size) = true)
    (hroot : ¬ a / info.page_size = info.root_idx) :
    inclCost info flag a = compute_page_cycles info (a / info.page_size) +
      inclCost info (fun p => if p = a / info.page_size then true else flag p)
        (info.get_page_entry_addr (a / info.page_size)) := by
  rw [inclCost, if_neg hflag]
  simp [hroot]

/-- Combined effect of one `include`: it adds exactly `inclCost` of the
current direction's flags to the segment counter, leaves the cumulative
counter untouched, leaves the other direction's flags untouched, and never
clears a flag of its own direction. -/
theorem includeAddr_effects (info : PageTableInfo) (s : MemoryMonitor)
    (a : Nat) (d : IncludeDir) :
    (MemoryMonitor.includeAddr info s a d).segment_cycle
        = s.segment_cycle + inclCost info (fun p => s.getFlag p d) a
    ∧ (MemoryMonitor.includeAddr info s a d).prev_segments_cycle
        = s.prev_segments_cycle
    ∧ (∀ p d2, d2 ≠ d →
        (MemoryMonitor.includeAddr info s a d).getFlag p d2 = s.getFlag p d2)
    ∧ (∀ p, s.getFlag p d = true →
        (MemoryMonitor.includeAddr info s a d).getFlag p d = true) := by
  induction s, a, d using MemoryMonitor.includeAddr.induct info with
  | case1 s a d hflag =>
    rw [MemoryMonitor.includeAddr, if_pos hflag, inclCost_flagged info _ a hflag]
    exact ⟨rfl, rfl, fun _ _ _ => rfl, fun _ h => h⟩
  | case2 s a d hflag hroot =>
    rw [MemoryMonitor.includeAddr, if_neg hflag, inclCost_root info _ a hflag hroot]
    simp only [dif_pos hroot]
    refine ⟨trivial, ?_, ?_, ?_⟩
    · exact setFlag_prev ..
    · intro p d2 hd2
      rw [updateCycle_getFlag, setFlag_getFlag]
      simp [hd2]
    · intro p hp
      rw [updateCycle_getFlag, setFlag_getFlag]
      split <;> simp [hp]
  | case3 s a d hflag s1 hroot ih =>
    rw [MemoryMonitor.includeAddr, if_neg hflag]
    simp only [dif_neg hroot]
    obtain ⟨ihc, ihp, iho, ihm⟩ := ih
    have hflags : (fun p => s1.getFlag p d) =
        fun p => if p = a / info.page_size then true else s.getFlag p d := by
      funext p
      rw [updateCycle_getFlag, setFlag_getFlag]
      simp
    refine ⟨?_, ?_, ?_, ?_⟩
    · rw [ihc, hflags, inclCost_step info _ a hflag hroot]
      show s.segment_cycle + compute_page_cycles info (a / info.page_size) + _ = _
      rw [Nat.add_assoc]
    · rw [ihp]
      exact setFlag_prev ..
    · intro p d2 hd2
      rw [iho p d2 hd2, updateCycle_getFlag, setFlag_getFlag]
      simp [hd2]
    · intro p hp
      refine ihm p ?_
      rw [updateCycle_getFlag, setFlag_getFlag]
      split <;> simp [hp]

/-- After an `include`, the flag of the touched page is set for the access's
direction. -/
theorem includeAddr_flag_self (info : PageTableInfo) (s : MemoryMonitor)
    (a : Nat) (d : IncludeDir) :
    (MemoryMonitor.includeAddr info s a d).getFlag (a / info.page_size) d = true := by
  by_cases hflag : s.getFlag (a / info.page_size) d
  · rw [MemoryMonitor.includeAddr, if_pos hflag]
    exact hflag
  · rw [MemoryMonitor.includeAddr, if_neg hflag]
    have hset : ∀ n, ({ s.setFlag (a / info.page_size) d with segment_cycle := n }
        : MemoryMonitor).getFlag (a / info.page_size) d = true := by
      intro n
      rw [updateCycle_getFlag, setFlag_getFlag]
      simp
    split
    · exact hset _
    · exact (includeAddr_effects info _ _ d).2.2.2 _ (hset _)

theorem runSegments_prev (cs : List Nat) : ∀ s : MemoryMonitor,
    (runSegments s cs).prev_segments_cycle = s.prev_segments_cycle + cs.sum := by
  induction cs with
  | nil => intro s; rfl
  | cons c cs ih =>
    intro s
    show (runSegments (MemoryMonitor.clear_segment { s with segment_cycle := c }) cs).prev_segments_cycle = _
    rw [ih]
    show s.prev_segments_cycle + c + cs.sum = _
    simp [Nat.add_assoc]

/-- C1: for an address `a` on page `p` with the `(p, d)` flag clear, `include`
sets the flag and charges `cyclesPerPage(BLOCKS_PER_PAGE) =
1 + 5 + (16+52)·BLOCKS_PER_PAGE` for a non-root `p` and then recurses, in the
same direction, on the address of `p`'s authentication entry; a root `p` is
instead charged `cyclesPerPage(num_root_entries / 2)` with no further charge;
an already-flagged page leaves the state untouched. -/
theorem include_page_accounting (info : PageTableInfo) (s : MemoryMonitor)
    (a : Nat) (d : IncludeDir) :
    (s.getFlag (a / info.page_size) d = true →
      MemoryMonitor.includeAddr info s a d = s)
    ∧ (s.getFlag (a / info.page_size) d = false →
        a / info.page_size = info.root_idx →
        MemoryMonitor.includeAddr info s a d =
          { s.setFlag (a / info.page_size) d with
            segment_cycle :=
              s.segment_cycle + cycles_per_page (info.num_root_entries / 2) })
    ∧ (s.getFlag (a / info.page_size) d = false →
        a / info.page_size ≠ info.root_idx →
        MemoryMonitor.includeAddr info s a d =
          MemoryMonitor.includeAddr info
            { s.setFlag (a / info.page_size) d with
              segment_cycle :=
                s.segment_cycle + (1 + 5 + (16 + 52) * BLOCKS_PER_PAGE info) }
            (info.get_page_entry_addr (a / info.page_size)) d) := by
  refine ⟨?_, ?_, ?_⟩
  · intro hflag
    rw [MemoryMonitor.includeAddr, if_pos hflag]
  · intro hflag hroot
    have hn : ¬ s.getFlag (a / info.page_size) d = true := by simp [hflag]
    rw [MemoryMonitor.includeAddr, if_neg hn]
    simp only [dif_pos hroot]
    rw [compute_page_cycles, if_pos hroot]
  · intro hflag hroot
    have hn : ¬ s.getFlag (a / info.page_size) d = true := by simp [hflag]
    rw [MemoryMonitor.includeAddr, if_neg hn]
    simp only [dif_neg hroot]
    rw [compute_page_cycles, if_neg hroot]
    rfl

theorem include_page_accounting_witness :
    exMon.getFlag (2048 / exInfo.page_size) .Read = false
    ∧ 2048 / exInfo.page_size ≠ exInfo.root_idx
    ∧ MemoryMonitor.includeAddr exInfo exMon 2048 .Read =
        MemoryMonitor.includeAddr exInfo
          { exMon.setFlag (2048 / exInfo.page_size) .Read with
            segment_cycle :=
              exMon.segment_cycle + (1 + 5 + (16 + 52) * BLOCKS_PER_PAGE exInfo) }
          (exInfo.get_page_entry_addr (2048 / exInfo.page_size)) .Read :=
  ⟨rfl, by decide,
    (include_page_accounting exInfo exMon 2048 .Read).2.2 rfl (by decide)⟩

/-- C2: a second access to the same page in the same direction within a
segment is free (the monitor state is unchanged), while one load access and
one store access to the same page each charge their direction's cost exactly
once (the combined charge is the sum of the two individual charges). -/
theorem include_idempotent_cost (info : PageTableInfo) (s : MemoryMonitor)
    (a a2 : Nat) (d : IncludeDir)
    (hsame : a2 / info.page_size = a / info.page_size) :
    (MemoryMonitor.includeAddr info (MemoryMonitor.includeAddr info s a d) a2 d
        = MemoryMonitor.includeAddr info s a d)
    ∧ ((MemoryMonitor.includeAddr info
          (MemoryMonitor.includeAddr info s a .Read) a2 .Write).segment_cycle
          + s.segment_cycle
        = (MemoryMonitor.includeAddr info s a .Read).segment_cycle
          + (MemoryMonitor.includeAddr info s a2 .Write).segment_cycle) := by
  constructor
  · have hflag : (MemoryMonitor.includeAddr info s a d).getFlag
        (a2 / info.page_size) d = true := by
      rw [hsame]; exact includeAddr_flag_self info s a d
    rw [MemoryMonitor.includeAddr, if_pos hflag]
  · have e1 := (includeAddr_effects info s a .Read).1
    have hw : (fun p => (MemoryMonitor.includeAddr info s a .Read).getFlag p .Write)
        = fun p => s.getFlag p .Write := by
      funext p
      exact (includeAddr_effects info s a .Read).2.2.1 p .Write (by decide)
    have e2 := (includeAddr_effects info
      (MemoryMonitor.includeAddr info s a .Read) a2 .Write).1
    have e3 := (includeAddr_effects info s a2 .Write).1
    rw [e2, hw, e1, e3]
    omega

theorem include_idempotent_cost_witness :
    (MemoryMonitor.includeAddr exInfo
        (MemoryMonitor.includeAddr exInfo exMon 2048 .Read) 2052 .Read
      = MemoryMonitor.includeAddr exInfo exMon 2048 .Read)
    ∧ ((MemoryMonitor.includeAddr exInfo
          (MemoryMonitor.includeAddr exInfo exMon 2048 .Read) 2052 .Write).segment_cycle
          + exMon.segment_cycle
        = (MemoryMonitor.includeAddr exInfo exMon 2048 .Read).segment_cycle
          + (MemoryMonitor.includeAddr exInfo exMon 2052 .Write).segment_cycle) :=
  include_idempotent_cost exInfo exMon 2048 2052 .Read (by decide)

/-- C3: `clear_segment` clears every page flag in both directions, zeroes the
current-segment counter and folds it into the cumulative counter, so that
after a run of closed segments the cumulative counter is the sum of the
segments' totals; a subsequent `include` charges the full untouched-state
cost again, independent of any flags set before the clear. -/
theorem clear_segment_resets (info : PageTableInfo) (s : MemoryMonitor)
    (a : Nat) (d : IncludeDir) (cs : List Nat) :
    (∀ p d2, s.clear_segment.getFlag p d2 = false)
    ∧ s.clear_segment.segment_cycle = 0
    ∧ s.clear_segment.prev_segments_cycle
        = s.prev_segments_cycle + s.segment_cycle
    ∧ (runSegments s cs).prev_segments_cycle = s.prev_segments_cycle + cs.sum
    ∧ (MemoryMonitor.includeAddr info s.clear_segment a d).segment_cycle
        = inclCost info (fun _ => false) a := by
  refine ⟨?_, rfl, rfl, runSegments_prev cs s, ?_⟩
  · intro p d2
    cases d2 <;> rfl
  · have e := (includeAddr_effects info s.clear_segment a d).1
    have hf : (fun p => s.clear_segment.getFlag p d) = fun _ => false := by
      funext p
      cases d <;> rfl
    rw [e, hf]
    exact Nat.zero_add _

/-! ## Instruction decoder theorems -/

/-- C4 (amended): every valid R-type arithmetic/logic encoding decodes to a
`RegisterStore` advancing the pc by 4, costing 1 cycle for the
arithmetic/compare ops (`add`, `sub`, `slt`, `sltu`) and 2 cycles for the
shift/logic ops (`sll`, `srl`, `xor`, `sra`, `or`, `and`), matching the
I-type immediate family's split. -/
theorem rtype_alu_record (pc : Nat) (st : MachineState)
    (halign : pc % 4 = 0)
    (hop : extract_bits (st.load_ram pc) 6 0 = 0b0110011)
    (hpair : (extract_bits (st.load_ram pc) 14 12,
        extract_bits (st.load_ram pc) 31 25) ∈
      ([(0b000, 0b0000000), (0b000, 0b0100000), (0b010, 0b0000000),
        (0b011, 0b0000000), (0b001, 0b0000000), (0b101, 0b0000000),
        (0b100, 0b0000000), (0b101, 0b0100000), (0b110, 0b0000000),
        (0b111, 0b0000000)] : List (Nat × Nat))) :
    ∃ val, exec_rv32im pc st =
      .ok (.RegisterStore (extract_bits (st.load_ram pc) 11 7) val (pc + 4)
        (if (extract_bits (st.load_ram pc) 14 12,
            extract_bits (st.load_ram pc) 31 25) ∈
          ([(0b000, 0b0000000), (0b000, 0b0100000), (0b010, 0b0000000),
            (0b011, 0b0000000)] : List (Nat × Nat)) then 1 else 2)) := by
  simp only [List.mem_cons, List.not_mem_nil, or_false, Prod.mk.injEq] at hpair
  rcases hpair with ⟨hf3, hf7⟩ | ⟨hf3, hf7⟩ | ⟨hf3, hf7⟩ | ⟨hf3, hf7⟩ | ⟨hf3, hf7⟩ |
    ⟨hf3, hf7⟩ | ⟨hf3, hf7⟩ | ⟨hf3, hf7⟩ | ⟨hf3, hf7⟩ | ⟨hf3, hf7⟩ <;>
    simp [exec_rv32im, halign, hop, hf3, hf7]

/-- C4 counterexample: the canonical `sll x1, x2, x3` encoding with `x2 = 5`,
`x3 = 7` is a valid R-type arithmetic/logic instruction, and it decodes to a
`RegisterStore` costing 2 cycles — not 1 as claimed. -/
theorem rtype_alu_one_cycle_cex :
    exec_rv32im 0 sllSt = .ok (.RegisterStore 1 640 4 2)
    ∧ ¬ ∃ reg val new_pc, exec_rv32im 0 sllSt
        = .ok (.RegisterStore reg val new_pc 1) := by
  have h : exec_rv32im 0 sllSt = .ok (.RegisterStore 1 640 4 2) := by rfl
  refine ⟨h, ?_⟩
  rintro ⟨r, v, n, hc⟩
  rw [h] at hc
  simp at hc

theorem rtype_alu_record_witness :
    ∃ val, exec_rv32im 0 sllSt =
      .ok (.RegisterStore (extract_bits (sllSt.load_ram 0) 11 7) val (0 + 4)
        (if (extract_bits (sllSt.load_ram 0) 14 12,
            extract_bits (sllSt.load_ram 0) 31 25) ∈
          ([(0b000, 0b0000000), (0b000, 0b0100000), (0b010, 0b0000000),
            (0b011, 0b0000000)] : List (Nat × Nat)) then 1 else 2)) :=
  rtype_alu_record 0 sllSt rfl (by decide) (by decide)

/-- C6: with a zero divisor, `div` and `divu` decode to a `RegisterStore`
writing `0xFFFFFFFF`, and `rem` and `remu` to one writing the dividend
unchanged; none of the four traps. -/
theorem divrem_by_zero (pc : Nat) (st : MachineState)
    (halign : pc % 4 = 0)
    (hop : extract_bits (st.load_ram pc) 6 0 = 0b0110011)
    (hf7 : extract_bits (st.load_ram pc) 31 25 = 0b0000001)
    (hzero : st.load_reg (extract_bits (st.load_ram pc) 24 20) = 0) :
    (extract_bits (st.load_ram pc) 14 12 = 0b100 →
      exec_rv32im pc st = .ok (.RegisterStore (extract_bits (st.load_ram pc) 11 7)
        0xFFFFFFFF (pc + 4) 2))
    ∧ (extract_bits (st.load_ram pc) 14 12 = 0b101 →
      exec_rv32im pc st = .ok (.RegisterStore (extract_bits (st.load_ram pc) 11 7)
        0xFFFFFFFF (pc + 4) 2))
    ∧ (extract_bits (st.load_ram pc) 14 12 = 0b110 →
      exec_rv32im pc st = .ok (.RegisterStore (extract_bits (st.load_ram pc) 11 7)
        (st.load_reg (extract_bits (st.load_ram pc) 19 15)) (pc + 4) 2))
    ∧ (extract_bits (st.load_ram pc) 14 12 = 0b111 →
      exec_rv32im pc st = .ok (.RegisterStore (extract_bits (st.load_ram pc) 11 7)
        (st.load_reg (extract_bits (st.load_ram pc) 19 15)) (pc + 4) 2)) := by
  refine ⟨fun hf3 => ?_, fun hf3 => ?_, fun hf3 => ?_, fun hf3 => ?_⟩ <;>
    simp [exec_rv32im, halign, hop, hf3, hf7, hzero, U32]

theorem divrem_by_zero_witness :
    exec_rv32im 0 (divSt 4) = .ok (.RegisterStore 1 0xFFFFFFFF 4 2)
    ∧ exec_rv32im 0 (divSt 6) = .ok (.RegisterStore 1 77 4 2) :=
  ⟨(divrem_by_zero 0 (divSt 4) rfl (by decide) (by decide) (by decide)).1 (by decide),
   (divrem_by_zero 0 (divSt 6) rfl (by decide) (by decide) (by decide)).2.2.1 (by decide)⟩

/-- C8: the store path's alignment guard tests `word_addr & (bytes - 1)`, but
`word_addr = addr & !(WORD_SIZE-1)` is already word aligned, so the guard can
never fire: `sh x2, 1(x1)` with `x1 = 0` — a half-word store to the odd
address 1 — decodes to a `MemoryStore` of the containing word (merging
`0xABCD` at byte offset 1) instead of failing with an error. -/
theorem store_unaligned_not_rejected :
    exec_rv32im 4 shSt = .ok (.MemoryStore 0 0xABCD00) := by rfl
theorem natToWords_words (z : Nat) (hz : z < 2 ^ 256) : wordsToNat (natToWords z) = z := by
  have hr : List.range WIDTH_WORDS = [0, 1, 2, 3, 4, 5, 6, 7] := rfl
  simp only [natToWords, hr, List.map_cons, List.map_nil, wordsToNat]
  norm_num
  omega

theorem wordsToNat_lt (ws : List Nat) (h : ∀ w ∈ ws, w < 2 ^ 32) :
    wordsToNat ws < 2 ^ (32 * ws.length) := by
  induction ws with
  | nil => simp [wordsToNat]
  | cons w t ih =>
    have hw : w < 2 ^ 32 := h w (List.mem_cons_self ..)
    have ht := ih fun x hx => h x (List.mem_cons_of_mem _ hx)
    simp only [wordsToNat, List.length_cons]
    have h1 : w + wordsToNat t * 2 ^ 32 < (wordsToNat t + 1) * 2 ^ 32 := by
      have : (wordsToNat t + 1) * 2 ^ 32 = wordsToNat t * 2 ^ 32 + 2 ^ 32 := by ring
      omega
    have h2 : (wordsToNat t + 1) * 2 ^ 32 ≤ 2 ^ (32 * t.length) * 2 ^ 32 :=
      Nat.mul_le_mul_right _ ht
    have h3 : 2 ^ (32 * t.length) * 2 ^ 32 = 2 ^ (32 * (t.length + 1)) := by
      rw [← pow_add]
      ring_nf
    omega

/-! ## ECall dispatcher theorems -/

/-- C9: a zero-length ecall RAM read records no page index, and a
positive-length read records exactly the pages overlapping the read byte
range — `[addr, addr + 4·len)` for the word variant, `[addr, addr + len)`
for the byte variant (page `p` covers bytes `[p·PS, (p+1)·PS)`). -/
theorem ecall_page_loads (PS : Nat) (hPS : 0 < PS) (mem memb : Nat → Nat)
    (ex : ECallRecord) (addr len : Nat) :
    ((load_ram_words PS mem ex addr 0).1.page_loads = ex.page_loads)
    ∧ ((ecall_load_ram PS memb ex addr 0).1.page_loads = ex.page_loads)
    ∧ (0 < len → ∀ p, p ∈ (load_ram_words PS mem ex addr len).1.page_loads ↔
        (p ∈ ex.page_loads ∨
          (addr < (p + 1) * PS ∧ p * PS < addr + len * WORD_SIZE)))
    ∧ (0 < len → ∀ p, p ∈ (ecall_load_ram PS memb ex addr len).1.page_loads ↔
        (p ∈ ex.page_loads ∨ (addr < (p + 1) * PS ∧ p * PS < addr + len))) := by
  have hlow : ∀ p, addr / PS ≤ p ↔ addr < (p + 1) * PS := by
    intro p
    rw [← Nat.lt_succ_iff, Nat.div_lt_iff_lt_mul hPS]
  have hhigh : ∀ p L, 0 < L → (p ≤ (addr + L - 1) / PS ↔ p * PS < addr + L) := by
    intro p L hL
    rw [Nat.le_div_iff_mul_le hPS]
    have hq : 0 ≤ p * PS := Nat.zero_le _
    generalize p * PS = q at *
    omega
  refine ⟨rfl, rfl, ?_, ?_⟩
  · intro hlen p
    have hne : ¬ len = 0 := Nat.pos_iff_ne_zero.mp hlen
    simp only [load_ram_words, if_neg hne, Finset.mem_union, Finset.mem_Icc]
    rw [hlow p, hhigh p (len * WORD_SIZE) (by simp [WORD_SIZE]; omega)]
  · intro hlen p
    have hne : ¬ len = 0 := Nat.pos_iff_ne_zero.mp hlen
    simp only [ecall_load_ram, if_neg hne, Finset.mem_union, Finset.mem_Icc]
    rw [hlow p, hhigh p len hlen]

theorem ecall_page_loads_witness :
    (0 : Nat) < 1024
    ∧ (0 < 2 → ∀ p, p ∈ (load_ram_words 1024 (fun _ => 0)
        ECallRecord.init 1020 2).1.page_loads ↔
        (p ∈ ECallRecord.init.page_loads ∨
          (1020 < (p + 1) * 1024 ∧ p * 1024 < 1020 + 2 * WORD_SIZE))) :=
  ⟨by decide,
    (ecall_page_loads 1024 (by decide) (fun _ => 0) (fun _ => 0)
      ECallRecord.init 1020 2).2.2.1⟩
/-- C5: the BIGINT ecall fails when the `op` register is nonzero; otherwise it
charges exactly `BIGINT_CYCLES = 9` cycles and writes at `z_ptr` the eight
little-endian limbs of `x*y` when `n = 0` (failing when the 256-bit product
overflows) and of `(x*y) mod n` when `n ≠ 0` — the 512-bit intermediate is
exact, so the reduced value survives the final 256-bit truncation. -/
theorem do_bigint_spec (PS : Nat) (mem regs : Nat → Nat)
    (hmem : ∀ a, mem a < 2 ^ 32) :
    (regs REG_A1 ≠ 0 → do_bigint PS mem regs = .error .opNonzero)
    ∧ (regs REG_A1 = 0 → bigintOperand mem (regs REG_A4) = 0 →
        bigintOperand mem (regs REG_A2) * bigintOperand mem (regs REG_A3) < 2 ^ 256 →
        (do_bigint PS mem regs).toOption.map ECallRecord.cycles = some BIGINT_CYCLES
        ∧ (do_bigint PS mem regs).toOption.map ECallRecord.ram_writes
            = some (storeWords (regs REG_A0)
              (natToWords (bigintOperand mem (regs REG_A2) * bigintOperand mem (regs REG_A3))))
        ∧ wordsToNat (natToWords
              (bigintOperand mem (regs REG_A2) * bigintOperand mem (regs REG_A3)))
            = bigintOperand mem (regs REG_A2) * bigintOperand mem (regs REG_A3))
    ∧ (regs REG_A1 = 0 → bigintOperand mem (regs REG_A4) = 0 →
        ¬ bigintOperand mem (regs REG_A2) * bigintOperand mem (regs REG_A3) < 2 ^ 256 →
        do_bigint PS mem regs = .error .mulOverflow)
    ∧ (regs REG_A1 = 0 → bigintOperand mem (regs REG_A4) ≠ 0 →
        (do_bigint PS mem regs).toOption.map ECallRecord.cycles = some BIGINT_CYCLES
        ∧ (do_bigint PS mem regs).toOption.map ECallRecord.ram_writes
            = some (storeWords (regs REG_A0)
              (natToWords (bigintOperand mem (regs REG_A2) * bigintOperand mem (regs REG_A3)
                % bigintOperand mem (regs REG_A4))))
        ∧ wordsToNat (natToWords
              (bigintOperand mem (regs REG_A2) * bigintOperand mem (regs REG_A3)
                % bigintOperand mem (regs REG_A4)))
            = bigintOperand mem (regs REG_A2) * bigintOperand mem (regs REG_A3)
              % bigintOperand mem (regs REG_A4)) := by
  have hoplt : ∀ ptr, bigintOperand mem ptr < 2 ^ 256 := by
    intro ptr
    have := wordsToNat_lt ((List.range WIDTH_WORDS).map fun i => mem (ptr + i * WORD_SIZE))
      (by
        intro w hw
        obtain ⟨i, _, rfl⟩ := List.mem_map.mp hw
        exact hmem _)
    simpa [bigintOperand] using this
  refine ⟨?_, ?_, ?_, ?_⟩
  · intro hop
    simp [do_bigint, hop]
  · intro hop hn hlt
    refine ⟨?_, ?_, natToWords_words _ hlt⟩ <;>
      · simp [bigintOperand, WIDTH_WORDS, WORD_SIZE] at hn hlt
        simp [do_bigint, hop, load_ram_words, bigintOperand, hn, hlt, Except.toOption,
          ECallRecord.init, BIGINT_CYCLES, WIDTH_WORDS, WORD_SIZE]
  · intro hop hn hnlt
    simp [bigintOperand, WIDTH_WORDS, WORD_SIZE] at hn hnlt
    simp [do_bigint, hop, load_ram_words, hn, hnlt, WIDTH_WORDS, WORD_SIZE]
  · intro hop hn
    have hmodlt : bigintOperand mem (regs REG_A2) * bigintOperand mem (regs REG_A3)
        % bigintOperand mem (regs REG_A4) < 2 ^ 256 :=
      lt_trans (Nat.mod_lt _ (Nat.pos_of_ne_zero hn)) (hoplt _)
    have hmod := Nat.mod_eq_of_lt hmodlt
    refine ⟨?_, ?_, natToWords_words _ hmodlt⟩
    · simp [bigintOperand, WIDTH_WORDS, WORD_SIZE] at hn hmod
      simp [do_bigint, hop, load_ram_words, bigintOperand, hn, hmod, Except.toOption,
        ECallRecord.init, BIGINT_CYCLES, WIDTH_WORDS, WORD_SIZE]
    · simp [bigintOperand, WIDTH_WORDS, WORD_SIZE] at hn hmod
      simp [do_bigint, hop, load_ram_words, bigintOperand, hn, hmod, Except.toOption,
        ECallRecord.init, BIGINT_CYCLES, WIDTH_WORDS, WORD_SIZE]
      rw [Nat.mod_eq_of_lt hmod]

theorem do_bigint_spec_witness :
    (do_bigint 1024 bgMem bgRegs).toOption.map ECallRecord.cycles = some BIGINT_CYCLES
    ∧ (do_bigint 1024 bgMem bgRegs).toOption.map ECallRecord.ram_writes
        = some (storeWords (bgRegs REG_A0)
          (natToWords (bigintOperand bgMem (bgRegs REG_A2)
            * bigintOperand bgMem (bgRegs REG_A3)
            % bigintOperand bgMem (bgRegs REG_A4))))
    ∧ wordsToNat (natToWords (bigintOperand bgMem (bgRegs REG_A2)
        * bigintOperand bgMem (bgRegs REG_A3)
        % bigintOperand bgMem (bgRegs REG_A4)))
        = bigintOperand bgMem (bgRegs REG_A2) * bigintOperand bgMem (bgRegs REG_A3)
          % bigintOperand bgMem (bgRegs REG_A4) :=
  (do_bigint_spec 1024 bgMem bgRegs
      (by intro a; simp only [bgMem]; split_ifs <;> decide)).2.2.2
    rfl (by decide)
/-- C7 (amended): a SOFTWARE ecall whose NUL-terminated name resolves in the
registry runs the handler on a fresh zeroed buffer of the requested `w` words
and charges exactly `align_up(w, WORD_SIZE) + 2 = 4·⌈w/4⌉ + 2` cycles; a name
absent from the registry fails with the unknown-syscall error. -/
theorem do_software_spec (tbl : List (List Nat × Handler)) (memb regs : Nat → Nat)
    (fuel : Nat) (name : List Nat)
    (hname : load_string_bytes memb (regs REG_A2) fuel = some name) :
    (lookupSyscall tbl name = none →
      do_software tbl memb regs fuel = .error (.unknownSyscall name))
    ∧ (∀ h a0 a1 buf, lookupSyscall tbl name = some h →
        h (List.replicate (regs REG_A1) 0) = .ok ((a0, a1), buf) →
        do_software tbl memb regs fuel = .ok
          { page_loads := ∅
            ram_writes := storeWords (regs REG_A0) buf
            reg_writes := [(REG_A0, a0), (REG_A1, a1)]
            syscall := some (buf, a0, a1)
            exit_code := none
            cycles := align_up (regs REG_A1) WORD_SIZE + 2 }) := by
  constructor
  · intro hlook
    simp [do_software, hname, hlook]
  · intro h a0 a1 buf hlook hrun
    simp [do_software, hname, hlook, hrun, ECallRecord.init]

/-- C7 counterexample: with a registered one-byte name and `w = 1` requested
output word, the SOFTWARE ecall charges `align_up(1, 4) + 2 = 6` cycles, not
`ceil(1) + 2 = 3` (the ceiling of the integer word count is the word count
itself). -/
theorem software_cycles_cex :
    (do_software swTbl swMem swRegs 2).toOption.map ECallRecord.cycles = some 6
    ∧ (6 : Nat) ≠ 1 + 2 := by
  constructor
  · rfl
  · decide

theorem do_software_spec_witness :
    lookupSyscall swTbl [99] = some swHandler
    ∧ swHandler (List.replicate (swRegs REG_A1) 0) = .ok ((7, 9), [0])
    ∧ do_software swTbl swMem swRegs 2 = .ok
        { page_loads := ∅
          ram_writes := storeWords (swRegs REG_A0) [0]
          reg_writes := [(REG_A0, 7), (REG_A1, 9)]
          syscall := some ([0], 7, 9)
          exit_code := none
          cycles := align_up (swRegs REG_A1) WORD_SIZE + 2 } :=
  ⟨rfl, rfl,
    (do_software_spec swTbl swMem swRegs 2 [99] rfl).2 swHandler 7 9 [0] rfl rfl⟩
theorem if_bool_toNat (b : Bool) : (if b = true then (1 : Nat) else 0) = b.toNat := by
  cases b <;> rfl

theorem carry_bit_toNat (tmp : Nat) (h : tmp < 2 ^ 33) :
    ((tmp >>> 32 : Nat) != 0).toNat = tmp / 2 ^ 32 := by
  rw [Nat.shiftRight_eq_div_pow]
  rcases Nat.lt_or_ge tmp (2 ^ 32) with hlt | hge
  · rw [Nat.div_eq_of_lt hlt]
    rfl
  · have h1 : tmp / 2 ^ 32 = 1 := by omega
    rw [h1]
    rfl

theorem addLoop_val : ∀ (a b : List Nat) (c : Bool), a.length = b.length →
    (∀ x ∈ a, x < 2 ^ 32) → (∀ x ∈ b, x < 2 ^ 32) →
    wordsToNat (addLoop a b c).1 + ((addLoop a b c).2).toNat * 2 ^ (32 * a.length)
    = wordsToNat a + wordsToNat b + c.toNat := by
  intro a
  induction a with
  | nil =>
    intro b c hlen _ _
    have hb : b = [] := List.length_eq_zero.mp hlen.symm
    subst hb
    simp [addLoop, wordsToNat]
  | cons x t ih =>
    intro b c hlen ha hb
    obtain ⟨y, u, rfl⟩ : ∃ y u, b = y :: u := by
      cases b with
      | nil => simp at hlen
      | cons y u => exact ⟨y, u, rfl⟩
    have hx : x < 2 ^ 32 := ha x (List.mem_cons_self ..)
    have hy : y < 2 ^ 32 := hb y (List.mem_cons_self ..)
    have hc : c.toNat ≤ 1 := by cases c <;> simp
    have hlen2 : t.length = u.length := by simpa using hlen
    have ihs := ih u ((x + y + c.toNat) >>> 32 != 0) hlen2
      (fun z hz => ha z (List.mem_cons_of_mem _ hz))
      (fun z hz => hb z (List.mem_cons_of_mem _ hz))
    have hcb : ((x + y + c.toNat) >>> 32 != 0).toNat = (x + y + c.toNat) / 2 ^ 32 :=
      carry_bit_toNat _ (by omega)
    simp only [addLoop, wordsToNat, List.length_cons, if_bool_toNat]
    rw [show 32 * (t.length + 1) = 32 * t.length + 32 by ring, pow_add]
    generalize hM : (2 : Nat) ^ (32 * t.length) = M at ihs ⊢
    cases hco : (addLoop t u ((x + y + c.toNat) >>> 32 != 0)).2 <;>
      rw [hco] at ihs <;> simp only [Bool.toNat_false, Bool.toNat_true] at ihs ⊢ <;>
      omega

theorem borrow_bit_toNat (tmp : Nat) (h : tmp < 2 ^ 33) :
    ((tmp >>> 32 : Nat) == 0).toNat = 1 - tmp / 2 ^ 32 := by
  rw [Nat.shiftRight_eq_div_pow]
  rcases Nat.lt_or_ge tmp (2 ^ 32) with hlt | hge
  · rw [Nat.div_eq_of_lt hlt]
    rfl
  · have h1 : tmp / 2 ^ 32 = 1 := by omega
    rw [h1]
    rfl

theorem subLoop_val : ∀ (a b : List Nat) (c : Bool), a.length = b.length →
    (∀ x ∈ a, x < 2 ^ 32) → (∀ x ∈ b, x < 2 ^ 32) →
    wordsToNat (subLoop a b c).1 + wordsToNat b + c.toNat
    = wordsToNat a + ((subLoop a b c).2).toNat * 2 ^ (32 * a.length) := by
  intro a
  induction a with
  | nil =>
    intro b c hlen _ _
    have hb : b = [] := List.length_eq_zero.mp hlen.symm
    subst hb
    simp [subLoop, wordsToNat]
  | cons x t ih =>
    intro b c hlen ha hb
    obtain ⟨y, u, rfl⟩ : ∃ y u, b = y :: u := by
      cases b with
      | nil => simp at hlen
      | cons y u => exact ⟨y, u, rfl⟩
    have hx : x < 2 ^ 32 := ha x (List.mem_cons_self ..)
    have hy : y < 2 ^ 32 := hb y (List.mem_cons_self ..)
    have hc : c.toNat ≤ 1 := by cases c <;> simp
    have hlen2 : t.length = u.length := by simpa using hlen
    have ihs := ih u ((2 ^ 32 + x - y - c.toNat) >>> 32 == 0) hlen2
      (fun z hz => ha z (List.mem_cons_of_mem _ hz))
      (fun z hz => hb z (List.mem_cons_of_mem _ hz))
    have hcb : ((2 ^ 32 + x - y - c.toNat) >>> 32 == 0).toNat
        = 1 - (2 ^ 32 + x - y - c.toNat) / 2 ^ 32 :=
      borrow_bit_toNat _ (by omega)
    simp only [subLoop, wordsToNat, List.length_cons, if_bool_toNat]
    rw [show 32 * (t.length + 1) = 32 * t.length + 32 by ring, pow_add]
    generalize hM : (2 : Nat) ^ (32 * t.length) = M at ihs ⊢
    cases hco : (subLoop t u ((2 ^ 32 + x - y - c.toNat) >>> 32 == 0)).2 <;>
      rw [hco] at ihs <;> simp only [Bool.toNat_false, Bool.toNat_true] at ihs ⊢ <;>
      omega

theorem addLoop_lt : ∀ (a b : List Nat) (c : Bool), a.length = b.length →
    wordsToNat (addLoop a b c).1 < 2 ^ (32 * a.length) := by
  intro a
  induction a with
  | nil =>
    intro b c hlen
    simp [addLoop, wordsToNat]
  | cons x t ih =>
    intro b c hlen
    obtain ⟨y, u, rfl⟩ : ∃ y u, b = y :: u := by
      cases b with
      | nil => simp at hlen
      | cons y u => exact ⟨y, u, rfl⟩
    have hlen2 : t.length = u.length := by simpa using hlen
    have ihs := ih u ((x + y + if c = true then 1 else 0) >>> 32 != 0) hlen2
    have hmod : (x + y + if c = true then (1 : Nat) else 0) % 2 ^ 32 < 2 ^ 32 :=
      Nat.mod_lt _ (by omega)
    simp only [addLoop, wordsToNat, List.length_cons]
    rw [show 32 * (t.length + 1) = 32 * t.length + 32 by ring, pow_add]
    generalize hM : (2 : Nat) ^ (32 * t.length) = M at ihs ⊢
    omega

theorem subLoop_lt : ∀ (a b : List Nat) (c : Bool), a.length = b.length →
    wordsToNat (subLoop a b c).1 < 2 ^ (32 * a.length) := by
  intro a
  induction a with
  | nil =>
    intro b c hlen
    simp [subLoop, wordsToNat]
  | cons x t ih =>
    intro b c hlen
    obtain ⟨y, u, rfl⟩ : ∃ y u, b = y :: u := by
      cases b with
      | nil => simp at hlen
      | cons y u => exact ⟨y, u, rfl⟩
    have hlen2 : t.length = u.length := by simpa using hlen
    have ihs := ih u ((2 ^ 32 + x - y - if c = true then 1 else 0) >>> 32 == 0) hlen2
    have hmod : (2 ^ 32 + x - y - if c = true then (1 : Nat) else 0) % 2 ^ 32 < 2 ^ 32 :=
      Nat.mod_lt _ (by omega)
    simp only [subLoop, wordsToNat, List.length_cons]
    rw [show 32 * (t.length + 1) = 32 * t.length + 32 by ring, pow_add]
    generalize hM : (2 : Nat) ^ (32 * t.length) = M at ihs ⊢
    omega

set_option maxRecDepth 4000 in
/-- C10: over 8-limb (256-bit) values, `add_assign` leaves the limbs of
`(a + b) mod 2^256` and returns the carry, true exactly when `a + b ≥ 2^256`;
`sub_assign` leaves the limbs of `(a - b) mod 2^256` and returns the borrow,
true exactly when `b > a`. -/
theorem bigint_add_sub_assign (a b : List Nat) (ha : a.length = 8)
    (hb : b.length = 8) (hal : ∀ x ∈ a, x < 2 ^ 32) (hbl : ∀ x ∈ b, x < 2 ^ 32) :
    (wordsToNat (BigInt.add_assign a b).1 = (wordsToNat a + wordsToNat b) % 2 ^ 256
      ∧ ((BigInt.add_assign a b).2 = true ↔ 2 ^ 256 ≤ wordsToNat a + wordsToNat b))
    ∧ ((wordsToNat (BigInt.sub_assign a b).1 : Int)
          = ((wordsToNat a : Int) - wordsToNat b) % 2 ^ 256
      ∧ ((BigInt.sub_assign a b).2 = true ↔ wordsToNat a < wordsToNat b)) := by
  have hlen : a.length = b.length := by rw [ha, hb]
  have hA := wordsToNat_lt a hal
  have hB := wordsToNat_lt b hbl
  rw [ha] at hA
  rw [hb] at hB
  norm_num at hA hB
  have hadd := addLoop_val a b false hlen hal hbl
  have haddlt := addLoop_lt a b false hlen
  have hsub := subLoop_val a b false hlen hal hbl
  have hsublt := subLoop_lt a b false hlen
  rw [ha] at hadd haddlt hsub hsublt
  norm_num at hadd haddlt hsub hsublt
  simp only [BigInt.add_assign, BigInt.sub_assign]
  refine ⟨⟨?_, ?_⟩, ?_, ?_⟩
  · cases hco : (addLoop a b false).2 <;>
      rw [hco] at hadd <;> simp only [Bool.toNat_false, Bool.toNat_true] at hadd <;>
      omega
  · cases hco : (addLoop a b false).2 <;>
      rw [hco] at hadd <;> simp only [Bool.toNat_false, Bool.toNat_true] at hadd <;>
      simp [hco] <;> omega
  · cases hco : (subLoop a b false).2 <;>
      rw [hco] at hsub <;> simp only [Bool.toNat_false, Bool.toNat_true] at hsub <;>
      omega
  · cases hco : (subLoop a b false).2 <;>
      rw [hco] at hsub <;> simp only [Bool.toNat_false, Bool.toNat_true] at hsub <;>
      simp [hco] <;> omega

theorem bigint_add_sub_assign_witness :
    (wordsToNat (BigInt.add_assign wA wB).1 = (wordsToNat wA + wordsToNat wB) % 2 ^ 256
      ∧ ((BigInt.add_assign wA wB).2 = true ↔ 2 ^ 256 ≤ wordsToNat wA + wordsToNat wB))
    ∧ ((wordsToNat (BigInt.sub_assign wA wB).1 : Int)
          = ((wordsToNat wA : Int) - wordsToNat wB) % 2 ^ 256
      ∧ ((BigInt.sub_assign wA wB).2 = true ↔ wordsToNat wA < wordsToNat wB)) :=
  bigint_add_sub_assign wA wB (by decide) (by decide) (by decide) (by decide)
